import Mathlib

set_option maxRecDepth 100000

/-!
Verification of the prox-deals-automation core: a shallow embedding of the
ingestion-deduplication pipeline (`src/services/ingestion.ts`, `ingestDeals`),
the preference-filtered digest selection (`src/services/email.ts`,
`sendWeeklyDeals`), the retailer grouping of the e-mail template
(`src/templates/weeklyDeals.ts`, `generateEmailHTML`) and the scraper
(`src/services/scraper.ts`, `scrapeSmartAndFinal` / `parsePrice` /
`inferCategory`).  Prices are modelled as rationals; the database tables
behind the Supabase client are modelled as in-memory lists with the same
lookup and uniqueness behaviour the code relies on.
-/

/-- Raw deal record, the `Deal` interface of `src/types/index.ts`.
The TS field `end` is a Lean keyword, hence the guillemets. -/
structure Deal where
  retailer : String
  product : String
  size : String
  price : ℚ
  start : String
  «end» : String
  category : String
deriving Repr, DecidableEq

/-- A row of the `retailers` table: `retailers (id, name)`. -/
structure Retailer where
  id : Nat
  name : String
deriving Repr, DecidableEq

/-- A row of the `products` table: `products (id, name, size, category)`. -/
structure Product where
  id : Nat
  name : String
  size : String
  category : String
deriving Repr, DecidableEq

/-- A row of the `deals` table: `deals (retailer_id, product_id, price,
start_date, end_date)` with the composite unique key
`(retailer_id, product_id, start_date)`. -/
structure StoredDeal where
  retailer_id : Nat
  product_id : Nat
  price : ℚ
  start_date : String
  end_date : String
deriving Repr, DecidableEq

/-- The database state: the three tables touched by `ingestDeals`, plus the
serial-id counters used when a new retailer or product row is created. -/
structure DB where
  retailers : List Retailer
  products : List Product
  deals : List StoredDeal
  nextRetailerId : Nat
  nextProductId : Nat
deriving Repr, DecidableEq

def emptyDB : DB := ⟨[], [], [], 0, 0⟩

/-- `supabase.from('retailers').select('id').eq('name', name).single()`. -/
def findRetailer (db : DB) (name : String) : Option Retailer :=
  db.retailers.find? (fun r => r.name == name)

/-- `supabase.from('products').select('id').eq('name', name).eq('size', size).single()`. -/
def findProduct (db : DB) (name size : String) : Option Product :=
  db.products.find? (fun p => p.name == name && p.size == size)

/-- Step 1 of `ingestDeals`: get-or-create the retailer by name. -/
def resolveRetailer (db : DB) (name : String) : DB × Retailer :=
  match findRetailer db name with
  | some r => (db, r)
  | none =>
    let r : Retailer := ⟨db.nextRetailerId, name⟩
    ({ db with retailers := db.retailers ++ [r],
               nextRetailerId := db.nextRetailerId + 1 }, r)

/-- Step 2 of `ingestDeals`: get-or-create the product by (name, size);
the category is stored at creation time from the incoming record. -/
def resolveProduct (db : DB) (name size category : String) : DB × Product :=
  match findProduct db name size with
  | some p => (db, p)
  | none =>
    let p : Product := ⟨db.nextProductId, name, size, category⟩
    ({ db with products := db.products ++ [p],
               nextProductId := db.nextProductId + 1 }, p)

/-- The composite unique constraint on `deals`: does a row with this
`(retailer_id, product_id, start_date)` key already exist? -/
def dealExists (db : DB) (rid pid : Nat) (start : String) : Bool :=
  db.deals.any (fun sd =>
    sd.retailer_id == rid && sd.product_id == pid && sd.start_date == start)

/-- Per-record outcome of the ingestion loop body: an insert, a skipped
duplicate (Postgres error 23505), or a caught-and-logged failure. -/
inductive Outcome
  | inserted
  | duplicate
  | failed
deriving Repr, DecidableEq

/-- The body of the `for` loop of `ingestDeals` for one raw deal, with the
store reachable: resolve retailer, resolve product, insert the deal; a
unique-constraint violation yields `duplicate` and changes nothing. -/
def processDeal (db : DB) (d : Deal) : DB × Outcome :=
  let rr := resolveRetailer db d.retailer
  let pp := resolveProduct rr.1 d.product d.size d.category
  if dealExists pp.1 rr.2.id pp.2.id d.start then
    (pp.1, Outcome.duplicate)
  else
    ({ pp.1 with deals :=
        pp.1.deals ++ [⟨rr.2.id, pp.2.id, d.price, d.start, d.«end»⟩] },
     Outcome.inserted)

/-- One loop iteration of `ingestDeals` including the per-record
`try`/`catch`: when the store is unreachable for this record every storage
call fails, the thrown error is caught and logged, the record is skipped
(nothing is written, nothing is counted) and the loop continues. -/
def processDealAvail (avail : Deal → Bool) (db : DB) (d : Deal) : DB × Outcome :=
  if avail d then processDeal db d else (db, Outcome.failed)

/-- `ingestDeals`: the whole ingestion pass over a batch, in input order,
returning the final store and the per-record outcomes. -/
def ingestDeals (avail : Deal → Bool) (db : DB) : List Deal → DB × List Outcome
  | [] => (db, [])
  | d :: rest =>
    let step := processDealAvail avail db d
    let tail := ingestDeals avail step.1 rest
    (tail.1, step.2 :: tail.2)

/-- The counts the terminal log line of `ingestDeals` reports:
`Ingested ${inserted} deals (${skipped} duplicates skipped)` — the
inserted count and the duplicate count, and nothing else. -/
def ingestSummary (os : List Outcome) : Nat × Nat :=
  (os.count Outcome.inserted, os.count Outcome.duplicate)

/-- Number of per-record failures in a pass, a quantity the terminal log
line does not include. -/
def failedCount (os : List Outcome) : Nat := os.count Outcome.failed

/-- Does the store already hold a row for this raw deal's natural key,
as the lookup chain of `ingestDeals` would find it? -/
def dealKeyPresentB (db : DB) (d : Deal) : Bool :=
  match findRetailer db d.retailer with
  | none => false
  | some r =>
    match findProduct db d.product d.size with
    | none => false
    | some p => dealExists db r.id p.id d.start

/-- A user row: the `User` interface plus the nullable
`preferred_retailers` column read back by `sendWeeklyDeals`. -/
structure User where
  name : String
  email : String
  preferred_retailers : Option (List String)
deriving Repr, DecidableEq

/-- One row of the active-deals query of `sendWeeklyDeals`: a deal joined
with `retailers(name)` and `products(name, size, category)`. -/
structure DealRow where
  retailer_name : String
  product_name : String
  product_size : String
  product_category : String
  price : ℚ
  start_date : String
  end_date : String
deriving Repr, DecidableEq

/-- `DealForEmail` of `src/types/index.ts`. -/
structure DealForEmail where
  retailer : String
  product : String
  size : String
  price : ℚ
  start_date : String
  end_date : String
  category : String
deriving Repr, DecidableEq

/-- The filter callback of `sendWeeklyDeals`: no preferences (null or
empty array) keeps every deal; otherwise keep the deal iff its retailer
name is a member of the preference list. -/
def prefersDeal (prefs : Option (List String)) (row : DealRow) : Bool :=
  match prefs with
  | none => true
  | some ps => if ps.isEmpty then true else ps.contains row.retailer_name

/-- The `.map` of `sendWeeklyDeals` turning a joined row into a
`DealForEmail`. -/
def toDealForEmail (row : DealRow) : DealForEmail :=
  ⟨row.retailer_name, row.product_name, row.product_size, row.price,
   row.start_date, row.end_date, row.product_category⟩

/-- The `.filter` stage of `sendWeeklyDeals` for one user. -/
def filterDealsForUser (u : User) (allDeals : List DealRow) : List DealRow :=
  allDeals.filter (prefersDeal u.preferred_retailers)

/-- `userDeals` of `sendWeeklyDeals`: filter by preference, `.slice(0, 6)`,
map to `DealForEmail`. -/
def userDeals (u : User) (allDeals : List DealRow) : List DealForEmail :=
  ((filterDealsForUser u allDeals).take 6).map toDealForEmail

/-- Per-recipient outcome of the send loop: skipped because the digest is
empty, sent, or a delivery failure. -/
inductive SendOutcome
  | skippedEmpty
  | sent
  | failedSend
deriving Repr, DecidableEq

/-- One iteration of the send loop of `sendWeeklyDeals`: an empty digest
means `continue` with no delivery attempt; otherwise one delivery attempt
whose success is decided by the delivery collaborator `sendOk`. -/
def processUser (sendOk : User → Bool) (allDeals : List DealRow) (u : User) :
    SendOutcome :=
  if (userDeals u allDeals).isEmpty then SendOutcome.skippedEmpty
  else if sendOk u then SendOutcome.sent
  else SendOutcome.failedSend

/-- The send loop over all users. -/
def sendPass (sendOk : User → Bool) (allDeals : List DealRow)
    (users : List User) : List SendOutcome :=
  users.map (processUser sendOk allDeals)

/-- The users for whom the send loop reaches the `resend.emails.send`
call, i.e. those with a non-empty digest. -/
def deliveryAttempts (allDeals : List DealRow) (users : List User) : List User :=
  users.filter (fun u => !(userDeals u allDeals).isEmpty)

/-- `sendWeeklyDeals` including its two initial fetches: an error on the
users fetch or on the deals fetch logs and returns at once (`none`: the
pass aborts before any recipient is processed); otherwise the send loop
runs over every user. -/
def sendWeeklyDeals (usersRes : Option (List User))
    (dealsRes : Option (List DealRow)) (sendOk : User → Bool) :
    Option (List SendOutcome) :=
  match usersRes with
  | none => none
  | some users =>
    match dealsRes with
    | none => none
    | some allDeals => some (sendPass sendOk allDeals users)

/-- The `reduce` accumulator step of `generateEmailHTML`
(`src/templates/weeklyDeals.ts`): one deal added to the object's own
data properties, modelled as an association list in key-insertion
(creation) order.  Enumeration order is applied separately, by
`Object.entries` — see `jsEntries`. -/
def addToGroups (acc : List (String × List DealForEmail)) (d : DealForEmail) :
    List (String × List DealForEmail) :=
  if acc.any (fun kv => kv.1 == d.retailer) then
    acc.map (fun kv => if kv.1 == d.retailer then (kv.1, kv.2 ++ [d]) else kv)
  else
    acc ++ [(d.retailer, [d])]

/-- First-seen deduplication of a list of names: the specification-side
description of the key order `Object.entries` exposes. -/
def firstSeen (l : List String) : List String :=
  l.foldl (fun acc x => if x ∈ acc then acc else acc ++ [x]) []

/-! Scraper (`src/services/scraper.ts`).  `parsePrice` is modelled
character-for-character: strip everything but digits and dots, take
JavaScript `parseFloat` on the result (`none` models `NaN`), and when the
text contains "for" (case-insensitively) try the regex
`(\d+)\s*for\s*\$?(\d+\.?\d*)` and return second-capture / first-capture.
JavaScript's `5 / 0 = Infinity` corner (a "0 for $X" text) maps to `0`
here; either way such an item's fate under the `price > 0` guard leaves
the stated invariant intact. -/

def isDigitC (c : Char) : Bool := '0' ≤ c && c ≤ '9'

def isSpaceC (c : Char) : Bool := c == ' ' || c == '\t' || c == '\n' || c == '\r'

/-- Numeric value of a digit run. -/
def digitsVal (cs : List Char) : Nat :=
  cs.foldl (fun n c => 10 * n + (c.toNat - '0'.toNat)) 0

/-- JavaScript `parseFloat` restricted to strings of digits and dots (the
shape of the cleaned text): longest valid `digits[.digits]` leading
portion, `none` when there is none (JS `NaN`). -/
def jsParseFloatClean (cs : List Char) : Option ℚ :=
  let intPart := cs.takeWhile isDigitC
  let rest := cs.dropWhile isDigitC
  let fracPart :=
    match rest with
    | '.' :: rs => rs.takeWhile isDigitC
    | _ => []
  if intPart.isEmpty && fracPart.isEmpty then none
  else some ((digitsVal intPart : ℚ) + (digitsVal fracPart : ℚ) / (10 : ℚ) ^ fracPart.length)

def toLowerChars (s : String) : List Char := s.toList.map Char.toLower

/-- Substring test on character lists (JS `String.prototype.includes`). -/
def hasSubstr (sub : List Char) : List Char → Bool
  | [] => sub.isEmpty
  | c :: cs => sub.isPrefixOf (c :: cs) || hasSubstr sub cs

/-- Try `(\d+)\s*for\s*\$?(\d+\.?\d*)` (case-insensitive) anchored at the
head of the text; the captures are the count and the total price. -/
def matchForAt (cs : List Char) : Option (Nat × ℚ) :=
  let d1 := cs.takeWhile isDigitC
  if d1.isEmpty then none
  else
    let r2 := (cs.dropWhile isDigitC).dropWhile isSpaceC
    match r2 with
    | a :: b :: c :: r3 =>
      if a.toLower == 'f' && b.toLower == 'o' && c.toLower == 'r' then
        let r4 := r3.dropWhile isSpaceC
        let r5 := match r4 with | '$' :: t => t | _ => r4
        let d2i := r5.takeWhile isDigitC
        if d2i.isEmpty then none
        else
          let r6 := r5.dropWhile isDigitC
          let d2f := match r6 with | '.' :: t => t.takeWhile isDigitC | _ => []
          some (digitsVal d1,
            (digitsVal d2i : ℚ) + (digitsVal d2f : ℚ) / (10 : ℚ) ^ d2f.length)
      else none
    | _ => none

/-- Leftmost match of the "N for $X" pattern anywhere in the text. -/
def findForMatch : List Char → Option (Nat × ℚ)
  | [] => none
  | c :: cs =>
    match matchForAt (c :: cs) with
    | some r => some r
    | none => findForMatch cs

/-- `parsePrice` of `src/services/scraper.ts`. -/
def parsePrice (priceText : String) : ℚ :=
  let cleaned := priceText.toList.filter (fun c => isDigitC c || c == '.')
  let price := jsParseFloatClean cleaned
  if hasSubstr ['f', 'o', 'r'] (toLowerChars priceText) then
    match findForMatch priceText.toList with
    | some nx => nx.2 / (nx.1 : ℚ)
    | none => price.getD 0
  else price.getD 0

/-- `inferCategory` of `src/services/scraper.ts`: case-insensitive keyword
matching, first matching category wins. -/
def inferCategory (product : String) : String :=
  let lower := toLowerChars product
  let hit := fun (w : String) => hasSubstr w.toList lower
  if ["chicken", "beef", "pork", "fish", "salmon", "turkey", "meat"].any hit
  then "protein"
  else if ["apple", "banana", "grape", "orange", "avocado", "berry", "produce"].any hit
  then "produce"
  else if ["milk", "cheese", "yogurt", "butter", "cream"].any hit
  then "dairy"
  else if ["soap", "detergent", "cleaner", "paper", "tissue"].any hit
  then "household"
  else if ["bread", "pasta", "rice", "cereal", "beans"].any hit
  then "pantry"
  else "other"

/-- One extracted circular item before the guard of `scrapeSmartAndFinal`:
the trimmed product text, the trimmed price text, and the trimmed size
text (the empty string when the node is absent, which the `||` turns into
"each"). -/
structure RawItem where
  product : String
  priceText : String
  size : String
deriving Repr, DecidableEq

/-- The `.each` loop of `scrapeSmartAndFinal` over the extracted items:
parse the price, default the size, infer the category, and keep the item
only when the product text is non-empty and the parsed price is positive;
kept items carry the retailer name "Smart & Final" and the current week
range. -/
def scrapeSmartAndFinal (weekStart weekEnd : String) :
    List RawItem → List Deal
  | [] => []
  | item :: rest =>
    let price := parsePrice item.priceText
    let size := if item.size == "" then "each" else item.size
    let category := inferCategory item.product
    if item.product ≠ "" ∧ 0 < price then
      ⟨"Smart & Final", item.product, size, price, weekStart, weekEnd, category⟩
        :: scrapeSmartAndFinal weekStart weekEnd rest
    else
      scrapeSmartAndFinal weekStart weekEnd rest

/-- The string-keyed properties of `Object.prototype`.  A retailer name
equal to one of these makes the `reduce` of `generateEmailHTML` throw: the
`!acc[key]` guard sees the inherited (truthy) value, skips initialisation,
and the following `.push` is called on a non-array. -/
def protoKeys : List String :=
  ["constructor", "hasOwnProperty", "isPrototypeOf", "propertyIsEnumerable",
   "toLocaleString", "toString", "valueOf", "__defineGetter__",
   "__defineSetter__", "__lookupGetter__", "__lookupSetter__", "__proto__"]

/-- Is a string a canonical array-index key: "0", or digits with no
leading zero, of numeric value below 2^32 - 1?  `Object.entries`
enumerates such keys first, in ascending numeric order. -/
def isArrayIndexKey (s : String) : Bool :=
  match s.toList with
  | [] => false
  | c :: cs =>
    (c :: cs).all isDigitC && (c != '0' || cs.isEmpty)
      && digitsVal (c :: cs) < 4294967295

/-- Insert a group before the first group whose key has a larger numeric
value (insertion sort step for the array-index keys). -/
def insertByVal (kv : String × List DealForEmail) :
    List (String × List DealForEmail) → List (String × List DealForEmail)
  | [] => [kv]
  | h :: t =>
    if digitsVal kv.1.toList < digitsVal h.1.toList then kv :: h :: t
    else h :: insertByVal kv t

/-- Sort groups ascending by the numeric value of their keys. -/
def sortByIndexVal :
    List (String × List DealForEmail) → List (String × List DealForEmail)
  | [] => []
  | h :: t => insertByVal h (sortByIndexVal t)

/-- `Object.entries` enumeration order over the insertion-ordered own
properties: canonical array-index keys first, ascending numerically, then
the remaining string keys in insertion order. -/
def jsEntries (groups : List (String × List DealForEmail)) :
    List (String × List DealForEmail) :=
  sortByIndexVal (groups.filter fun kv => isArrayIndexKey kv.1)
    ++ groups.filter (fun kv => !isArrayIndexKey kv.1)

/-- The `dealsByRetailer` grouping of `generateEmailHTML` as
`Object.entries` observes it: `none` models the TypeError thrown when a
retailer name collides with an `Object.prototype` property; otherwise the
insertion-ordered groups in `Object.entries` enumeration order. -/
def dealsByRetailer (deals : List DealForEmail) :
    Option (List (String × List DealForEmail)) :=
  if deals.any (fun d => protoKeys.contains d.retailer) then none
  else some (jsEntries (deals.foldl addToGroups []))

/-- One database state extends another when every table of the first is an
initial segment of the corresponding table of the second.  Every step of
the ingestion pass only appends rows, so states grow along this order. -/
def DBExtends (db db' : DB) : Prop :=
  (∃ t, db'.retailers = db.retailers ++ t) ∧
  (∃ t, db'.products = db.products ++ t) ∧
  (∃ t, db'.deals = db.deals ++ t)

/-- Concrete sample data (the `data/deals.json` examples of the repo). -/
def vonsGrapes : Deal :=
  ⟨"Vons", "Seedless Grapes", "per lb", 99/100, "2026-01-16", "2026-01-23",
   "produce"⟩

def wfAvocado : Deal :=
  ⟨"Whole Foods", "Organic Avocados", "each", 149/100, "2026-01-16",
   "2026-01-23", "produce"⟩

def dbWithVons : DB := (processDeal emptyDB vonsGrapes).1

/-- A malformed raw record: missing product name and non-positive price. -/
def malformedDeal : Deal :=
  ⟨"Vons", "", "per lb", -1, "2026-01-16", "2026-01-23", "produce"⟩

/-- Sample joined rows and users for concrete witnesses. -/
def rowVons : DealRow :=
  ⟨"Vons", "Seedless Grapes", "per lb", "produce", 99/100, "2026-01-16",
   "2026-01-23"⟩

def rowWF : DealRow :=
  ⟨"Whole Foods", "Organic Avocados", "each", "produce", 149/100,
   "2026-01-16", "2026-01-23"⟩

def rowSprouts : DealRow :=
  ⟨"Sprouts", "Wild Caught Salmon", "per lb", "protein", 899/100,
   "2026-01-16", "2026-01-23"⟩

def sampleRows : List DealRow := [rowVons, rowWF, rowSprouts]

def userNoPrefs : User := ⟨"Sam", "sam@example.com", none⟩

def userVonsSprouts : User := ⟨"Emma", "emma@example.com", some ["Vons", "Sprouts"]⟩

def userCVS : User := ⟨"Pat", "pat@example.com", some ["CVS"]⟩

def feVons : DealForEmail :=
  ⟨"Vons", "Seedless Grapes", "per lb", 99/100, "2026-01-16", "2026-01-23",
   "produce"⟩

def feSprouts : DealForEmail :=
  ⟨"Sprouts", "Wild Caught Salmon", "per lb", 899/100, "2026-01-16",
   "2026-01-23", "protein"⟩

/-- A deal whose retailer name is a canonical array-index string. -/
def fe7 : DealForEmail :=
  ⟨"7", "Clearance Pack", "each", 1, "2026-01-16", "2026-01-23", "other"⟩

/-! ### Lookup lemmas: growing a table only ever adds rows at the end,
so earlier lookups keep finding the same row. -/

theorem find?_append_of_some {α : Type} {p : α → Bool} {l : List α} (l' : List α)
    {x : α} (h : l.find? p = some x) : (l ++ l').find? p = some x := by
  induction l with
  | nil => simp [List.find?] at h
  | cons a t ih =>
    by_cases hp : p a
    · rw [List.find?_cons_of_pos _ hp] at h
      rw [List.cons_append, List.find?_cons_of_pos _ hp]
      exact h
    · rw [List.find?_cons_of_neg _ hp] at h
      rw [List.cons_append, List.find?_cons_of_neg _ hp]
      exact ih h

theorem find?_append_new {α : Type} {p : α → Bool} {l : List α} {x : α}
    (h : l.find? p = none) (hx : p x) : (l ++ [x]).find? p = some x := by
  induction l with
  | nil => simp [List.find?_cons_of_pos _ hx]
  | cons a t ih =>
    by_cases hp : p a
    · rw [List.find?_cons_of_pos _ hp] at h
      exact absurd h (by simp)
    · rw [List.find?_cons_of_neg _ hp] at h
      rw [List.cons_append, List.find?_cons_of_neg _ hp]
      exact ih h

theorem dbExtends_refl (db : DB) : DBExtends db db :=
  ⟨⟨[], by simp⟩, ⟨[], by simp⟩, ⟨[], by simp⟩⟩

theorem dbExtends_trans {a b c : DB} (h1 : DBExtends a b) (h2 : DBExtends b c) :
    DBExtends a c := by
  obtain ⟨⟨t1, e1⟩, ⟨t2, e2⟩, ⟨t3, e3⟩⟩ := h1
  obtain ⟨⟨s1, f1⟩, ⟨s2, f2⟩, ⟨s3, f3⟩⟩ := h2
  exact ⟨⟨t1 ++ s1, by rw [f1, e1, List.append_assoc]⟩,
         ⟨t2 ++ s2, by rw [f2, e2, List.append_assoc]⟩,
         ⟨t3 ++ s3, by rw [f3, e3, List.append_assoc]⟩⟩

theorem resolveRetailer_found {db : DB} {n : String} {r : Retailer}
    (h : findRetailer db n = some r) : resolveRetailer db n = (db, r) := by
  unfold resolveRetailer
  rw [h]

theorem resolveRetailer_retailers (db : DB) (n : String) :
    ∃ t, (resolveRetailer db n).1.retailers = db.retailers ++ t := by
  unfold resolveRetailer
  cases h : findRetailer db n with
  | some r => exact ⟨[], by simp⟩
  | none => exact ⟨[⟨db.nextRetailerId, n⟩], rfl⟩

theorem resolveRetailer_products (db : DB) (n : String) :
    (resolveRetailer db n).1.products = db.products := by
  unfold resolveRetailer
  cases h : findRetailer db n <;> rfl

theorem resolveRetailer_deals (db : DB) (n : String) :
    (resolveRetailer db n).1.deals = db.deals := by
  unfold resolveRetailer
  cases h : findRetailer db n <;> rfl

theorem findRetailer_resolve (db : DB) (n : String) :
    findRetailer (resolveRetailer db n).1 n = some (resolveRetailer db n).2 := by
  unfold resolveRetailer
  cases h : findRetailer db n with
  | some r => exact h
  | none =>
    show (db.retailers ++ [({ id := db.nextRetailerId, name := n } : Retailer)]).find?
        (fun r => r.name == n) = some { id := db.nextRetailerId, name := n }
    exact find?_append_new h (by simp)

theorem resolveProduct_found {db : DB} {n s c : String} {p : Product}
    (h : findProduct db n s = some p) : resolveProduct db n s c = (db, p) := by
  unfold resolveProduct
  rw [h]

theorem resolveProduct_products (db : DB) (n s c : String) :
    ∃ t, (resolveProduct db n s c).1.products = db.products ++ t := by
  unfold resolveProduct
  cases h : findProduct db n s with
  | some p => exact ⟨[], by simp⟩
  | none => exact ⟨[⟨db.nextProductId, n, s, c⟩], rfl⟩

theorem resolveProduct_retailers (db : DB) (n s c : String) :
    (resolveProduct db n s c).1.retailers = db.retailers := by
  unfold resolveProduct
  cases h : findProduct db n s <;> rfl

theorem resolveProduct_deals (db : DB) (n s c : String) :
    (resolveProduct db n s c).1.deals = db.deals := by
  unfold resolveProduct
  cases h : findProduct db n s <;> rfl

theorem findProduct_resolve (db : DB) (n s c : String) :
    findProduct (resolveProduct db n s c).1 n s = some (resolveProduct db n s c).2 := by
  unfold resolveProduct
  cases h : findProduct db n s with
  | some p => exact h
  | none =>
    show (db.products ++ [(⟨db.nextProductId, n, s, c⟩ : Product)]).find?
        (fun p => p.name == n && p.size == s)
        = some (⟨db.nextProductId, n, s, c⟩ : Product)
    exact find?_append_new h (by simp)

theorem processDeal_retailers (db : DB) (d : Deal) :
    (processDeal db d).1.retailers
      = (resolveProduct (resolveRetailer db d.retailer).1 d.product d.size
          d.category).1.retailers := by
  simp only [processDeal]
  split <;> rfl

theorem processDeal_products (db : DB) (d : Deal) :
    (processDeal db d).1.products
      = (resolveProduct (resolveRetailer db d.retailer).1 d.product d.size
          d.category).1.products := by
  simp only [processDeal]
  split <;> rfl

theorem processDeal_deals (db : DB) (d : Deal) :
    ∃ t, (processDeal db d).1.deals
      = (resolveProduct (resolveRetailer db d.retailer).1 d.product d.size
          d.category).1.deals ++ t := by
  simp only [processDeal]
  split
  · exact ⟨[], by simp⟩
  · exact ⟨_, rfl⟩

theorem processDeal_extends (db : DB) (d : Deal) :
    DBExtends db (processDeal db d).1 := by
  obtain ⟨t1, h1⟩ := resolveRetailer_retailers db d.retailer
  obtain ⟨t2, h2⟩ := resolveProduct_products (resolveRetailer db d.retailer).1
    d.product d.size d.category
  obtain ⟨t3, h3⟩ := processDeal_deals db d
  refine ⟨⟨t1, ?_⟩, ⟨t2, ?_⟩, ⟨t3, ?_⟩⟩
  · rw [processDeal_retailers, resolveProduct_retailers, h1]
  · rw [processDeal_products, h2, resolveRetailer_products]
  · rw [h3, resolveProduct_deals, resolveRetailer_deals]

theorem processDealAvail_extends (avail : Deal → Bool) (db : DB) (d : Deal) :
    DBExtends db (processDealAvail avail db d).1 := by
  unfold processDealAvail
  split
  · exact processDeal_extends db d
  · exact dbExtends_refl db

theorem ingestDeals_extends (avail : Deal → Bool) (ds : List Deal) (db : DB) :
    DBExtends db (ingestDeals avail db ds).1 := by
  induction ds generalizing db with
  | nil => exact dbExtends_refl db
  | cons d rest ih =>
    exact dbExtends_trans (processDealAvail_extends avail db d)
      (ih (processDealAvail avail db d).1)

/-! ### Presence of a deal's natural key, and its behaviour under the
ingestion steps. -/

theorem dealKeyPresentB_found {db : DB} {d : Deal} {r : Retailer} {p : Product}
    (hr : findRetailer db d.retailer = some r)
    (hp : findProduct db d.product d.size = some p) :
    dealKeyPresentB db d = dealExists db r.id p.id d.start := by
  unfold dealKeyPresentB
  rw [hr, hp]

theorem dealKeyPresentB_true_elim {db : DB} {d : Deal}
    (h : dealKeyPresentB db d = true) :
    ∃ r p, findRetailer db d.retailer = some r ∧
      findProduct db d.product d.size = some p ∧
      dealExists db r.id p.id d.start = true := by
  unfold dealKeyPresentB at h
  cases hr : findRetailer db d.retailer with
  | none => rw [hr] at h; simp at h
  | some r =>
    cases hp : findProduct db d.product d.size with
    | none => rw [hr, hp] at h; simp at h
    | some p =>
      rw [hr, hp] at h
      exact ⟨r, p, rfl, rfl, h⟩

theorem dealKeyPresentB_mono {db db' : DB} {d : Deal} (hx : DBExtends db db')
    (h : dealKeyPresentB db d = true) : dealKeyPresentB db' d = true := by
  obtain ⟨⟨t1, e1⟩, ⟨t2, e2⟩, ⟨t3, e3⟩⟩ := hx
  obtain ⟨r, p, hr, hp, hex⟩ := dealKeyPresentB_true_elim h
  have hr' : findRetailer db' d.retailer = some r := by
    unfold findRetailer at hr ⊢
    rw [e1]
    exact find?_append_of_some _ hr
  have hp' : findProduct db' d.product d.size = some p := by
    unfold findProduct at hp ⊢
    rw [e2]
    exact find?_append_of_some _ hp
  rw [dealKeyPresentB_found hr' hp']
  unfold dealExists at hex ⊢
  rw [e3, List.any_append, hex]
  rfl

theorem processDeal_of_present {db : DB} {d : Deal}
    (h : dealKeyPresentB db d = true) :
    processDeal db d = (db, Outcome.duplicate) := by
  obtain ⟨r, p, hr, hp, hex⟩ := dealKeyPresentB_true_elim h
  simp only [processDeal, resolveRetailer_found hr, resolveProduct_found hp, hex,
    if_true]

theorem processDeal_key_present (db : DB) (d : Deal) :
    dealKeyPresentB (processDeal db d).1 d = true := by
  have hfr : findRetailer (processDeal db d).1 d.retailer
      = some (resolveRetailer db d.retailer).2 := by
    unfold findRetailer
    rw [processDeal_retailers, resolveProduct_retailers]
    exact findRetailer_resolve db d.retailer
  have hfp : findProduct (processDeal db d).1 d.product d.size
      = some (resolveProduct (resolveRetailer db d.retailer).1 d.product d.size
          d.category).2 := by
    unfold findProduct
    rw [processDeal_products]
    exact findProduct_resolve (resolveRetailer db d.retailer).1 d.product d.size
      d.category
  unfold dealKeyPresentB
  rw [hfr, hfp]
  simp only [processDeal]
  split
  · assumption
  · unfold dealExists
    rw [List.any_append]
    simp

theorem processDealAvail_true (db : DB) (d : Deal) :
    processDealAvail (fun _ => true) db d = processDeal db d := rfl

theorem ingestDeals_cons (avail : Deal → Bool) (db : DB) (d : Deal)
    (rest : List Deal) :
    ingestDeals avail db (d :: rest)
      = ((ingestDeals avail (processDealAvail avail db d).1 rest).1,
         (processDealAvail avail db d).2
           :: (ingestDeals avail (processDealAvail avail db d).1 rest).2) := rfl

/-- After one all-successful ingestion pass, every deal of the batch has
its natural key present in the store. -/
theorem ingestDeals_all_present (ds : List Deal) (db : DB) (d : Deal)
    (hd : d ∈ ds) :
    dealKeyPresentB (ingestDeals (fun _ => true) db ds).1 d = true := by
  induction ds generalizing db with
  | nil => cases hd
  | cons a rest ih =>
    rw [ingestDeals_cons]
    cases List.mem_cons.mp hd with
    | inl heq =>
      subst heq
      refine dealKeyPresentB_mono
        (ingestDeals_extends (fun _ => true) rest (processDealAvail _ db d).1) ?_
      rw [processDealAvail_true]
      exact processDeal_key_present db d
    | inr hmem => exact ih (processDealAvail _ db a).1 hmem

/-- Running the all-successful pass over a batch whose keys are all
already present changes nothing and reports only duplicates. -/
theorem ingestDeals_all_dup (ds : List Deal) (db : DB)
    (h : ∀ d ∈ ds, dealKeyPresentB db d = true) :
    ingestDeals (fun _ => true) db ds
      = (db, ds.map (fun _ => Outcome.duplicate)) := by
  induction ds generalizing db with
  | nil => rfl
  | cons a rest ih =>
    rw [ingestDeals_cons, processDealAvail_true,
      processDeal_of_present (h a (List.mem_cons_self a rest))]
    dsimp only
    rw [ih db (fun d hd => h d (List.mem_cons_of_mem a hd))]
    rfl

/-- Claim C1: ingestion is idempotent with respect to the deal store.
Re-ingesting a deal whose (retailer, product, start_date) key is already
present leaves the store unchanged and reports a duplicate (a counted
success, not a failure); consequently ingesting the same deal set twice
leaves the store exactly as after one ingestion, and the second run
reports every item as a duplicate. -/
theorem ingestion_idempotent (db : DB) (d : Deal) (db0 : DB) (ds : List Deal)
    (h : dealKeyPresentB db d = true) :
    processDeal db d = (db, Outcome.duplicate) ∧
    (ingestDeals (fun _ => true) (ingestDeals (fun _ => true) db0 ds).1 ds).1
      = (ingestDeals (fun _ => true) db0 ds).1 ∧
    ∀ o ∈ (ingestDeals (fun _ => true)
        (ingestDeals (fun _ => true) db0 ds).1 ds).2, o = Outcome.duplicate := by
  have hrun := ingestDeals_all_dup ds (ingestDeals (fun _ => true) db0 ds).1
    (fun d hd => ingestDeals_all_present ds db0 d hd)
  refine ⟨processDeal_of_present h, ?_, ?_⟩
  · rw [hrun]
  · rw [hrun]
    intro o ho
    obtain ⟨x, _, hx⟩ := List.mem_map.mp ho
    exact hx.symm

/-- Witness for C1: the idempotency theorem applied to a concrete store
already holding the Vons grapes deal and to a concrete two-deal batch. -/
theorem ingestion_idempotent_witness :
    processDeal dbWithVons vonsGrapes = (dbWithVons, Outcome.duplicate) ∧
    (ingestDeals (fun _ => true)
        (ingestDeals (fun _ => true) emptyDB [vonsGrapes, wfAvocado]).1
        [vonsGrapes, wfAvocado]).1
      = (ingestDeals (fun _ => true) emptyDB [vonsGrapes, wfAvocado]).1 ∧
    ∀ o ∈ (ingestDeals (fun _ => true)
        (ingestDeals (fun _ => true) emptyDB [vonsGrapes, wfAvocado]).1
        [vonsGrapes, wfAvocado]).2, o = Outcome.duplicate :=
  ingestion_idempotent dbWithVons vonsGrapes emptyDB [vonsGrapes, wfAvocado]
    (of_decide_eq_true (by with_unfolding_all rfl))

/-! ### The preference filter and the digest cap. -/

theorem mem_firstSeen_aux (l : List String) (acc : List String) (x : String) :
    (x ∈ l.foldl (fun acc y => if y ∈ acc then acc else acc ++ [y]) acc)
      ↔ x ∈ acc ∨ x ∈ l := by
  induction l generalizing acc with
  | nil => simp
  | cons y t ih =>
    rw [List.foldl_cons, ih]
    by_cases hy : y ∈ acc
    · rw [if_pos hy]
      constructor
      · rintro (hs | ht)
        · exact Or.inl hs
        · exact Or.inr (List.mem_cons_of_mem _ ht)
      · rintro (hs | ht)
        · exact Or.inl hs
        · rcases List.mem_cons.mp ht with rfl | ht
          · exact Or.inl hy
          · exact Or.inr ht
    · rw [if_neg hy]
      simp only [List.mem_append, List.mem_singleton, List.mem_cons]
      tauto

theorem mem_firstSeen {l : List String} {x : String} :
    x ∈ firstSeen l ↔ x ∈ l := by
  unfold firstSeen
  rw [mem_firstSeen_aux]
  simp

/-- Claim C2: a recipient with empty (or absent) `preferred_retailers`
gets the active-deal list passed through unchanged, and their digest is
identical to that of a recipient whose preference list is the full set of
retailer names present in the active deals. -/
theorem no_preference_passthrough (u : User) (allDeals : List DealRow)
    (h : u.preferred_retailers = none ∨ u.preferred_retailers = some []) :
    filterDealsForUser u allDeals = allDeals ∧
    userDeals u allDeals
      = userDeals { u with preferred_retailers := some (firstSeen (allDeals.map DealRow.retailer_name)) } allDeals := by
  have hall : filterDealsForUser u allDeals = allDeals := by
    apply List.filter_eq_self.mpr
    intro a _
    rcases h with h | h <;> simp [prefersDeal, h]
  have hall2 : filterDealsForUser
      { u with preferred_retailers := some (firstSeen (allDeals.map DealRow.retailer_name)) } allDeals
      = allDeals := by
    apply List.filter_eq_self.mpr
    intro a ha
    simp only [prefersDeal]
    by_cases he : (firstSeen (allDeals.map DealRow.retailer_name)).isEmpty
    · rw [if_pos he]
    · rw [if_neg he]
      have : a.retailer_name ∈ firstSeen (allDeals.map DealRow.retailer_name) :=
        mem_firstSeen.mpr (List.mem_map_of_mem DealRow.retailer_name ha)
      simpa using this
  refine ⟨hall, ?_⟩
  unfold userDeals
  rw [hall, hall2]

/-- Witness for C2 at a concrete three-retailer deal list. -/
theorem no_preference_passthrough_witness :
    filterDealsForUser userNoPrefs sampleRows = sampleRows ∧
    userDeals userNoPrefs sampleRows
      = userDeals { userNoPrefs with preferred_retailers := some (firstSeen (sampleRows.map DealRow.retailer_name)) } sampleRows :=
  no_preference_passthrough userNoPrefs sampleRows (Or.inl rfl)

/-- Claim C3: the preference filter is stable and never re-sorts — the
filtered-and-capped output is a subsequence of the active-deal list, and
when that list is sorted ascending by price, so is the output (also after
the map into `DealForEmail` values). -/
theorem filter_stable_sorted (u : User) (allDeals : List DealRow)
    (h : allDeals.Pairwise (fun a b => a.price ≤ b.price)) :
    List.Sublist ((filterDealsForUser u allDeals).take 6) allDeals ∧
    ((filterDealsForUser u allDeals).take 6).Pairwise
      (fun a b => a.price ≤ b.price) ∧
    (userDeals u allDeals).Pairwise (fun a b => a.price ≤ b.price) := by
  have hsub : List.Sublist ((filterDealsForUser u allDeals).take 6) allDeals :=
    (List.take_sublist _ _).trans (List.filter_sublist _)
  have hpw : ((filterDealsForUser u allDeals).take 6).Pairwise
      (fun a b => a.price ≤ b.price) := List.Pairwise.sublist hsub h
  refine ⟨hsub, hpw, ?_⟩
  unfold userDeals
  exact List.pairwise_map.mpr hpw

/-- Witness for C3 at a concrete price-sorted deal list. -/
theorem filter_stable_sorted_witness :
    List.Sublist ((filterDealsForUser userVonsSprouts sampleRows).take 6)
      sampleRows ∧
    ((filterDealsForUser userVonsSprouts sampleRows).take 6).Pairwise
      (fun a b => a.price ≤ b.price) ∧
    (userDeals userVonsSprouts sampleRows).Pairwise
      (fun a b => a.price ≤ b.price) :=
  filter_stable_sorted userVonsSprouts sampleRows
    (of_decide_eq_true (by with_unfolding_all rfl))

/-- Claim C4: digest assembly is stable truncation — the retained items
are exactly the first `min 6 length` elements of the filtered list
(equal prices keep their incoming order because a prefix is taken as-is),
and the digest never holds more than 6 items. -/
theorem digest_cap_truncation (u : User) (allDeals : List DealRow) :
    userDeals u allDeals
      = ((filterDealsForUser u allDeals).take
          (min 6 (filterDealsForUser u allDeals).length)).map toDealForEmail ∧
    (userDeals u allDeals).length
      = min 6 (filterDealsForUser u allDeals).length ∧
    (userDeals u allDeals).length ≤ 6 := by
  have htake : (filterDealsForUser u allDeals).take
      (min 6 (filterDealsForUser u allDeals).length)
      = (filterDealsForUser u allDeals).take 6 := by
    rw [← List.take_take, List.take_length]
  have hlen : (userDeals u allDeals).length
      = min 6 (filterDealsForUser u allDeals).length := by
    unfold userDeals
    rw [List.length_map, List.length_take]
  refine ⟨?_, hlen, ?_⟩
  · unfold userDeals
    rw [htake]
  · rw [hlen]
    exact Nat.min_le_left _ _

/-- Claim C6: a recipient whose preferences match zero active deals gets
the empty digest, which is treated as "skip" — no delivery attempt is
made for them and the pass continues with the remaining recipients. -/
theorem empty_match_skip (sendOk : User → Bool) (allDeals : List DealRow)
    (u : User) (rest : List User)
    (h : filterDealsForUser u allDeals = []) :
    processUser sendOk allDeals u = SendOutcome.skippedEmpty ∧
    deliveryAttempts allDeals (u :: rest) = deliveryAttempts allDeals rest ∧
    sendPass sendOk allDeals (u :: rest)
      = SendOutcome.skippedEmpty :: sendPass sendOk allDeals rest := by
  have hud : userDeals u allDeals = [] := by
    unfold userDeals
    rw [h]
    rfl
  have hpu : processUser sendOk allDeals u = SendOutcome.skippedEmpty := by
    unfold processUser
    rw [hud]
    rfl
  refine ⟨hpu, ?_, ?_⟩
  · unfold deliveryAttempts
    simp [hud]
  · unfold sendPass
    rw [List.map_cons, hpu]

/-- Witness for C6: a CVS-only recipient against a deal list with no CVS
deals. -/
theorem empty_match_skip_witness :
    processUser (fun _ => true) sampleRows userCVS = SendOutcome.skippedEmpty ∧
    deliveryAttempts sampleRows (userCVS :: [userNoPrefs])
      = deliveryAttempts sampleRows [userNoPrefs] ∧
    sendPass (fun _ => true) sampleRows (userCVS :: [userNoPrefs])
      = SendOutcome.skippedEmpty :: sendPass (fun _ => true) sampleRows [userNoPrefs] :=
  empty_match_skip (fun _ => true) sampleRows userCVS [userNoPrefs]
    (of_decide_eq_true (by with_unfolding_all rfl))

/-! ### Grouping by retailer for presentation. -/

theorem firstSeen_append_singleton (l : List String) (x : String) :
    firstSeen (l ++ [x])
      = if x ∈ firstSeen l then firstSeen l else firstSeen l ++ [x] := by
  unfold firstSeen
  rw [List.foldl_append]
  rfl

theorem addToGroups_mem_iff (acc : List (String × List DealForEmail))
    (d : DealForEmail) :
    (acc.any (fun kv => kv.1 == d.retailer) = true)
      ↔ d.retailer ∈ acc.map Prod.fst := by
  rw [List.any_eq_true]
  constructor
  · rintro ⟨kv, hkv, hb⟩
    exact List.mem_map.mpr ⟨kv, hkv, by simpa using hb.symm⟩
  · intro hm
    obtain ⟨kv, hkv, he⟩ := List.mem_map.mp hm
    exact ⟨kv, hkv, by simp [he]⟩

theorem groupInv_step (pre : List DealForEmail)
    (acc : List (String × List DealForEmail)) (d : DealForEmail)
    (hkeys : acc.map Prod.fst = firstSeen (pre.map fun x => x.retailer))
    (hvals : ∀ kv ∈ acc, kv.2 = pre.filter fun x => x.retailer == kv.1) :
    ((addToGroups acc d).map Prod.fst
        = firstSeen ((pre ++ [d]).map fun x => x.retailer)) ∧
    ∀ kv ∈ addToGroups acc d,
      kv.2 = (pre ++ [d]).filter fun x => x.retailer == kv.1 := by
  rw [List.map_append, List.map_singleton, firstSeen_append_singleton]
  unfold addToGroups
  by_cases hany : acc.any (fun kv => kv.1 == d.retailer) = true
  · have hmem : d.retailer ∈ firstSeen (pre.map fun x => x.retailer) := by
      rw [← hkeys]
      exact (addToGroups_mem_iff acc d).mp hany
    rw [if_pos hany, if_pos hmem]
    constructor
    · rw [List.map_map, ← hkeys]
      apply List.map_congr_left
      intro kv _
      by_cases h : kv.1 = d.retailer <;> simp [Function.comp, h]
    · intro kv' hkv'
      obtain ⟨kv, hkv, he⟩ := List.mem_map.mp hkv'
      by_cases h : (kv.1 == d.retailer) = true
      · rw [if_pos h] at he
        subst he
        dsimp only
        have hkd : kv.1 = d.retailer := by simpa using h
        rw [List.filter_append,
          show List.filter (fun x => x.retailer == kv.1) [d] = [d] from by
            simp [List.filter_cons, hkd],
          ← hvals kv hkv]
      · rw [if_neg h] at he
        subst he
        have h' : (d.retailer == kv.1) = false := by
          rw [Bool.eq_false_iff]
          intro hc
          exact h (beq_iff_eq.mpr (beq_iff_eq.mp hc).symm)
        rw [List.filter_append,
          show List.filter (fun x => x.retailer == kv.1) [d] = [] from by
            simp [List.filter_cons, h'],
          List.append_nil]
        exact hvals kv hkv
  · have hmem : d.retailer ∉ firstSeen (pre.map fun x => x.retailer) := by
      rw [← hkeys]
      intro hc
      exact hany ((addToGroups_mem_iff acc d).mpr hc)
    rw [if_neg hany, if_neg hmem]
    constructor
    · rw [List.map_append, List.map_singleton, hkeys]
    · intro kv hkv
      rcases List.mem_append.mp hkv with hin | hnew
      · have h' : (d.retailer == kv.1) = false := by
          rw [Bool.eq_false_iff]
          intro hc
          apply hmem
          rw [← hkeys, beq_iff_eq.mp hc]
          exact List.mem_map.mpr ⟨kv, hin, rfl⟩
        rw [List.filter_append,
          show List.filter (fun x => x.retailer == kv.1) [d] = [] from by
            simp [List.filter_cons, h'],
          List.append_nil]
        exact hvals kv hin
      · have hkv2 : kv = (d.retailer, [d]) := by simpa using hnew
        subst hkv2
        dsimp only
        have hpre : (pre.filter fun x => x.retailer == d.retailer) = [] := by
          apply List.filter_eq_nil_iff.mpr
          intro x hx hc
          apply hmem
          rw [mem_firstSeen, ← beq_iff_eq.mp hc]
          exact List.mem_map.mpr ⟨x, hx, rfl⟩
        rw [List.filter_append, hpre, List.nil_append]
        simp [List.filter_cons]

theorem dealsByRetailer_inv (ds : List DealForEmail) (pre : List DealForEmail)
    (acc : List (String × List DealForEmail))
    (hkeys : acc.map Prod.fst = firstSeen (pre.map fun x => x.retailer))
    (hvals : ∀ kv ∈ acc, kv.2 = pre.filter fun x => x.retailer == kv.1) :
    ((ds.foldl addToGroups acc).map Prod.fst
        = firstSeen ((pre ++ ds).map fun x => x.retailer)) ∧
    ∀ kv ∈ ds.foldl addToGroups acc,
      kv.2 = (pre ++ ds).filter fun x => x.retailer == kv.1 := by
  induction ds generalizing pre acc with
  | nil =>
    rw [List.foldl_nil, List.append_nil]
    exact ⟨hkeys, hvals⟩
  | cons d rest ih =>
    rw [List.foldl_cons]
    have hstep := groupInv_step pre acc d hkeys hvals
    have hres := ih (pre ++ [d]) (addToGroups acc d) hstep.1 hstep.2
    constructor
    · rw [hres.1, List.append_assoc]
      rfl
    · intro kv hkv
      rw [hres.2 kv hkv, List.append_assoc]
      rfl

/-- Counterexample to claim C5 as universally stated: with a retailer
named "7" (a canonical array-index string) occurring after Vons in the
input, `Object.entries` enumerates the "7" group first, so the groups do
not appear in first-seen retailer order. -/
theorem grouping_first_seen_cex :
    dealsByRetailer [feVons, fe7] = some [("7", [fe7]), ("Vons", [feVons])] ∧
    ((dealsByRetailer [feVons, fe7]).getD []).map Prod.fst
      ≠ firstSeen ([feVons, fe7].map fun d => d.retailer) :=
  ⟨of_decide_eq_true (by with_unfolding_all rfl),
   of_decide_eq_true (by with_unfolding_all rfl)⟩

/-- Claim C5 (amended): for every capped deal list whose retailer names
are neither canonical array-index strings nor `Object.prototype` property
names, grouping by retailer succeeds and preserves both first-seen
retailer order and within-retailer order (each group is exactly the input
filtered to that retailer, in input order).  When a retailer name is a
canonical array-index string, `Object.entries` moves it to the front in
numeric order, and when it collides with an `Object.prototype` property
the grouping throws. -/
theorem grouping_preserves_order (ds : List DealForEmail)
    (hidx : ∀ d ∈ ds, isArrayIndexKey d.retailer = false)
    (hproto : ∀ d ∈ ds, protoKeys.contains d.retailer = false) :
    ∃ gs, dealsByRetailer ds = some gs ∧
      gs.map Prod.fst = firstSeen (ds.map fun d => d.retailer) ∧
      ∀ kv ∈ gs, kv.2 = ds.filter fun d => d.retailer == kv.1 := by
  have hinv := dealsByRetailer_inv ds [] [] rfl (by intro kv hkv; cases hkv)
  rw [List.nil_append] at hinv
  have hguard : (ds.any fun d => protoKeys.contains d.retailer) = false := by
    rw [List.any_eq_false]
    intro d hd
    rw [hproto d hd]
    exact Bool.false_ne_true
  have hkeys : ∀ kv ∈ ds.foldl addToGroups [], isArrayIndexKey kv.1 = false := by
    intro kv hkv
    have h1 : kv.1 ∈ (ds.foldl addToGroups []).map Prod.fst :=
      List.mem_map.mpr ⟨kv, hkv, rfl⟩
    rw [hinv.1, mem_firstSeen] at h1
    obtain ⟨d, hd, he⟩ := List.mem_map.mp h1
    rw [← he]
    exact hidx d hd
  have hfilter1 : ((ds.foldl addToGroups []).filter fun kv =>
      isArrayIndexKey kv.1) = [] := by
    apply List.filter_eq_nil_iff.mpr
    intro kv hkv hc
    rw [hkeys kv hkv] at hc
    simp at hc
  have hfilter2 : ((ds.foldl addToGroups []).filter fun kv =>
      !isArrayIndexKey kv.1) = ds.foldl addToGroups [] := by
    apply List.filter_eq_self.mpr
    intro kv hkv
    rw [hkeys kv hkv]
    rfl
  refine ⟨ds.foldl addToGroups [], ?_, hinv.1, hinv.2⟩
  unfold dealsByRetailer jsEntries
  rw [hguard, if_neg Bool.false_ne_true, hfilter1, hfilter2]
  rfl

/-- Witness for C5 (amended): the spec's own example — Vons grapes $0.99
before Sprouts salmon $8.99 groups into Vons first, each group holding
that retailer's deals in input order. -/
theorem grouping_preserves_order_witness :
    ∃ gs, dealsByRetailer [feVons, feSprouts] = some gs ∧
      gs.map Prod.fst = firstSeen ([feVons, feSprouts].map fun d => d.retailer) ∧
      ∀ kv ∈ gs, kv.2 = [feVons, feSprouts].filter fun d => d.retailer == kv.1 :=
  grouping_preserves_order [feVons, feSprouts]
    (of_decide_eq_true (by with_unfolding_all rfl))
    (of_decide_eq_true (by with_unfolding_all rfl))

/-! ### Storage failures, the pass summary, and (non-)validation. -/

theorem processDealAvail_false (db : DB) (d : Deal) :
    processDealAvail (fun _ => false) db d = (db, Outcome.failed) := rfl

theorem ingestDeals_unavailable (db : DB) (ds : List Deal) :
    ingestDeals (fun _ => false) db ds
      = (db, ds.map fun _ => Outcome.failed) := by
  induction ds generalizing db with
  | nil => rfl
  | cons d rest ih =>
    rw [ingestDeals_cons, processDealAvail_false]
    dsimp only
    rw [ih]
    rfl

/-- Counterexample to claim C7: with the store unreachable from the first
record on, the ingestion pass still processes the second record — the
per-record `catch` swallows the storage error and the loop continues, so
the pass does not abort after a storage failure. -/
theorem storage_failure_cex :
    (ingestDeals (fun _ => false) emptyDB [vonsGrapes, wfAvocado]).2
      = [Outcome.failed, Outcome.failed] ∧
    ¬ (ingestDeals (fun _ => false) emptyDB [vonsGrapes, wfAvocado]).2.length ≤ 1 :=
  ⟨rfl, by decide⟩

/-- Claim C7 (amended): a storage failure on either initial fetch of the
send pass makes it return at once, before any recipient is processed; in
the ingestion pass, however, a storage failure on a record is caught by
the per-record handler and the pass keeps processing every remaining
record (writing nothing), rather than aborting. -/
theorem storage_failure_handling (dealsRes : Option (List DealRow))
    (sendOk : User → Bool) (usersRes : Option (List User))
    (db : DB) (ds : List Deal) :
    sendWeeklyDeals none dealsRes sendOk = none ∧
    sendWeeklyDeals usersRes none sendOk = none ∧
    (ingestDeals (fun _ => false) db ds).1 = db ∧
    (ingestDeals (fun _ => false) db ds).2.length = ds.length ∧
    ∀ o ∈ (ingestDeals (fun _ => false) db ds).2, o = Outcome.failed := by
  refine ⟨rfl, by cases usersRes <;> rfl, ?_, ?_, ?_⟩
  · rw [ingestDeals_unavailable]
  · rw [ingestDeals_unavailable]
    exact List.length_map ds _
  · rw [ingestDeals_unavailable]
    intro o ho
    obtain ⟨x, _, hx⟩ := List.mem_map.mp ho
    exact hx.symm

theorem ingestDeals_length (avail : Deal → Bool) (db : DB) (ds : List Deal) :
    (ingestDeals avail db ds).2.length = ds.length := by
  induction ds generalizing db with
  | nil => rfl
  | cons d rest ih =>
    rw [ingestDeals_cons]
    dsimp only
    rw [List.length_cons, ih]
    rfl

theorem outcome_count_partition (os : List Outcome) :
    os.count Outcome.inserted + os.count Outcome.duplicate
      + os.count Outcome.failed = os.length := by
  induction os with
  | nil => rfl
  | cons o rest ih =>
    cases o with
    | inserted =>
      rw [List.count_cons_self, List.count_cons_of_ne (by decide),
        List.count_cons_of_ne (by decide), List.length_cons]
      omega
    | duplicate =>
      rw [List.count_cons_self, List.count_cons_of_ne (by decide),
        List.count_cons_of_ne (by decide), List.length_cons]
      omega
    | failed =>
      rw [List.count_cons_self, List.count_cons_of_ne (by decide),
        List.count_cons_of_ne (by decide), List.length_cons]
      omega

/-- Counterexample to claim C8: a run in which the sole record fails has
the same terminal summary as a failure-free empty run — the reported
summary does not include the failure count, so per-record failures are
not "counted and included in that summary". -/
theorem summary_omits_failures_cex :
    ingestSummary (ingestDeals (fun _ => false) emptyDB [vonsGrapes]).2
      = ingestSummary (ingestDeals (fun _ => true) emptyDB []).2 ∧
    failedCount (ingestDeals (fun _ => false) emptyDB [vonsGrapes]).2 = 1 ∧
    failedCount (ingestDeals (fun _ => true) emptyDB []).2 = 0 :=
  ⟨rfl, rfl, rfl⟩

/-- Claim C8 (amended): the ingestion pass always terminates having
processed every record of the batch (it never aborts on a bad record),
every record ends up as exactly one of inserted / duplicate / failed, and
the terminal summary reports the {inserted, duplicates} counts only —
per-record failures are logged but appear in no reported count. -/
theorem ingest_summary_counts (avail : Deal → Bool) (db : DB) (ds : List Deal) :
    (ingestDeals avail db ds).2.length = ds.length ∧
    (ingestSummary (ingestDeals avail db ds).2).1
        + (ingestSummary (ingestDeals avail db ds).2).2
        + failedCount (ingestDeals avail db ds).2 = ds.length ∧
    ingestSummary (ingestDeals avail db ds).2
      = ((ingestDeals avail db ds).2.count Outcome.inserted,
         (ingestDeals avail db ds).2.count Outcome.duplicate) := by
  refine ⟨ingestDeals_length avail db ds, ?_, rfl⟩
  rw [← ingestDeals_length avail db ds]
  exact outcome_count_partition (ingestDeals avail db ds).2

theorem resolveRetailer_new {db : DB} {n : String}
    (h : findRetailer db n = none) :
    resolveRetailer db n
      = ({ db with retailers := db.retailers ++ [⟨db.nextRetailerId, n⟩],
                   nextRetailerId := db.nextRetailerId + 1 },
         ⟨db.nextRetailerId, n⟩) := by
  unfold resolveRetailer
  rw [h]

theorem resolveProduct_new {db : DB} {n s c : String}
    (h : findProduct db n s = none) :
    resolveProduct db n s c
      = ({ db with products := db.products ++ [⟨db.nextProductId, n, s, c⟩],
                   nextProductId := db.nextProductId + 1 },
         ⟨db.nextProductId, n, s, c⟩) := by
  unfold resolveProduct
  rw [h]

theorem any_key_eq_false {deals : List StoredDeal} {rid pid : Nat}
    {start : String}
    (h : ∀ sd ∈ deals, sd.retailer_id ≠ rid ∨ sd.product_id ≠ pid) :
    (deals.any fun sd =>
      sd.retailer_id == rid && sd.product_id == pid && sd.start_date == start)
      = false := by
  rw [List.any_eq_false]
  intro sd hsd hc
  simp only [Bool.and_eq_true, beq_iff_eq] at hc
  rcases h sd hsd with hne | hne
  · exact hne (by tauto)
  · exact hne (by tauto)

/-- With the store reachable and the deal's natural key absent, the loop
body of `ingestDeals` inserts the record as-is.  The id-freshness
hypothesis states that the serial counters are ahead of every id already
referenced by a stored deal, which holds for every store the code itself
has built. -/
theorem processDeal_inserts_of_absent {db : DB} {d : Deal}
    (hfresh : ∀ sd ∈ db.deals, sd.retailer_id < db.nextRetailerId
      ∧ sd.product_id < db.nextProductId)
    (habs : dealKeyPresentB db d = false) :
    (processDeal db d).2 = Outcome.inserted ∧
    (processDeal db d).1.deals
      = db.deals ++ [⟨(resolveRetailer db d.retailer).2.id,
          (resolveProduct (resolveRetailer db d.retailer).1 d.product d.size
            d.category).2.id, d.price, d.start, d.«end»⟩] := by
  have hex : dealExists
      (resolveProduct (resolveRetailer db d.retailer).1 d.product d.size
        d.category).1
      (resolveRetailer db d.retailer).2.id
      (resolveProduct (resolveRetailer db d.retailer).1 d.product d.size
        d.category).2.id d.start = false := by
    unfold dealExists
    rw [resolveProduct_deals, resolveRetailer_deals]
    cases hr : findRetailer db d.retailer with
    | none =>
      rw [resolveRetailer_new hr]
      apply any_key_eq_false
      intro sd hsd
      exact Or.inl (Nat.ne_of_lt (hfresh sd hsd).1)
    | some r =>
      rw [resolveRetailer_found hr]
      cases hp : findProduct db d.product d.size with
      | none =>
        rw [resolveProduct_new hp]
        apply any_key_eq_false
        intro sd hsd
        exact Or.inr (Nat.ne_of_lt (hfresh sd hsd).2)
      | some p =>
        rw [resolveProduct_found hp]
        rw [dealKeyPresentB_found hr hp] at habs
        unfold dealExists at habs
        exact habs
  constructor
  · simp only [processDeal, hex, Bool.false_eq_true, if_false]
  · simp only [processDeal, hex, Bool.false_eq_true, if_false]
    rw [resolveProduct_deals, resolveRetailer_deals]

/-- Counterexample to claim C9: a record with an empty product name and a
negative price is not skipped by the ingestion pass — it is inserted into
the store and counted as inserted. -/
theorem no_validation_cex :
    (processDeal emptyDB malformedDeal).2 = Outcome.inserted ∧
    (processDeal emptyDB malformedDeal).1.deals
      = [⟨0, 0, -1, "2026-01-16", "2026-01-23"⟩] :=
  ⟨rfl, of_decide_eq_true (by with_unfolding_all rfl)⟩

/-- Claim C9 (amended): the ingestion pass performs no per-record
validation.  A malformed raw record (missing product name or non-positive
price) is processed exactly like any other: if its key is new it is
inserted into the store — with its malformed price — and counted as
inserted.  (The malformedness hypothesis is never consulted by the code
path, which is the point; the only validation of product and price in the
repository lives in the scraper, before ingestion.) -/
theorem no_validation_ingest (db : DB) (d : Deal)
    (_hmal : d.product = "" ∨ d.price ≤ 0)
    (hfresh : ∀ sd ∈ db.deals, sd.retailer_id < db.nextRetailerId
      ∧ sd.product_id < db.nextProductId)
    (habs : dealKeyPresentB db d = false) :
    (processDeal db d).2 = Outcome.inserted ∧
    (processDeal db d).1.deals
      = db.deals ++ [⟨(resolveRetailer db d.retailer).2.id,
          (resolveProduct (resolveRetailer db d.retailer).1 d.product d.size
            d.category).2.id, d.price, d.start, d.«end»⟩] :=
  processDeal_inserts_of_absent hfresh habs

/-- Witness for C9 (amended) at the concrete malformed record and the
empty store. -/
theorem no_validation_ingest_witness :
    (processDeal emptyDB malformedDeal).2 = Outcome.inserted ∧
    (processDeal emptyDB malformedDeal).1.deals
      = emptyDB.deals ++ [⟨(resolveRetailer emptyDB malformedDeal.retailer).2.id,
          (resolveProduct (resolveRetailer emptyDB malformedDeal.retailer).1
            malformedDeal.product malformedDeal.size
            malformedDeal.category).2.id, malformedDeal.price,
          malformedDeal.start, malformedDeal.«end»⟩] :=
  no_validation_ingest emptyDB malformedDeal
    (Or.inl rfl)
    (by intro sd hsd; cases hsd)
    rfl

/-- Claim C10: every deal returned by `scrapeSmartAndFinal` has a
non-empty product name, a strictly positive parsed price (prices from
"N for $X" texts being X/N), and the retailer field "Smart & Final";
items failing the guard are dropped before the list is returned. -/
theorem scraper_invariant (ws we : String) (items : List RawItem) (d : Deal)
    (hd : d ∈ scrapeSmartAndFinal ws we items) :
    d.product ≠ "" ∧ 0 < d.price ∧ d.retailer = "Smart & Final" := by
  induction items with
  | nil => cases hd
  | cons item rest ih =>
    simp only [scrapeSmartAndFinal] at hd
    by_cases hc : item.product ≠ "" ∧ 0 < parsePrice item.priceText
    · rw [if_pos hc] at hd
      rcases List.mem_cons.mp hd with rfl | hmem
      · exact ⟨hc.1, hc.2, rfl⟩
      · exact ih hmem
    · rw [if_neg hc] at hd
      exact ih hd

/-- Witness for C10: a "2 for $5" item parses to the price 5/2 and passes
the guard with retailer "Smart & Final". -/
theorem scraper_invariant_witness :
    (⟨"Smart & Final", "Grapes", "each", 5/2, "2026-01-16", "2026-01-23",
        "produce"⟩ : Deal).product ≠ "" ∧
    0 < (⟨"Smart & Final", "Grapes", "each", 5/2, "2026-01-16", "2026-01-23",
        "produce"⟩ : Deal).price ∧
    (⟨"Smart & Final", "Grapes", "each", 5/2, "2026-01-16", "2026-01-23",
        "produce"⟩ : Deal).retailer = "Smart & Final" :=
  scraper_invariant "2026-01-16" "2026-01-23" [⟨"Grapes", "2 for $5", ""⟩] _
    (of_decide_eq_true (by with_unfolding_all rfl))
